import Mathlib

/-
  Verification of the dosr modem (src/dosr.rs) against its specification.

  Modelling conventions, chosen once and used throughout:

  * f32 values are modelled as exact rationals.  Every frequency the frequency
    plan manipulates (base_freq, delta_freq and their integer combinations) is
    exactly representable, so the rational model agrees with the f32 code on
    the ranges the theorems quantify over.  Claims that hinge on genuine
    floating-point FFT numerics are reported as not statable instead.
  * usize and u8 arithmetic is modelled with explicit moduli (2 ^ 64 and 256),
    following the release-mode wrapping semantics of the compiled program.
    Overflow of a wrapping operation never panics; an assert, a slice index
    out of bounds, or an unwrap of a failed result always panics, in debug
    and release builds alike, and is modelled by an Option that is none.
  * The f32 to usize cast saturates (negative values clamp to 0, huge values
    to 2 ^ 64 - 1), as the as cast does in Rust.
  * f32::round rounds half away from zero; rustRound mirrors that on Q.
  * The forward FFT of rustfft is the discrete Fourier transform
    X k = sum over n of x n * exp (-2 * pi * I * k * n / N).  The twiddle
    factors exp (-2 * pi * I * k * n / N) are irrational, so the transform is
    embedded as dftBin with the twiddle table w as an explicit parameter;
    theorems either hold for every w or carry hypotheses stating the exact
    mathematical values of the bins they need, and witnesses instantiate w
    with a rational table realizing those values.
  * Magnitudes are modelled squared (normSq instead of sqrt of normSq), and
    the peak threshold 0.4 is squared to tau = 4 / 25 accordingly; since all
    quantities compared are nonnegative and x < y iff x ^ 2 < y ^ 2 on
    nonnegatives, every comparison the detector performs is preserved.
  * Rational division by zero yields 0 in Lean.  The only place the code
    divides by a possibly zero quantity is the normalization of a silent
    frame, where f32 produces NaN; both NaN (in f32) and 0 (here) fail every
    strict comparison the detector performs, so the detector behaviour
    coincides.
-/

/-- Configuration of the modem, mirroring struct Dosr in src/dosr.rs. -/
structure Dosr where
  base_freq : ℚ
  delta_freq : ℚ
  bits_per_chunk : ℕ
  values_per_chunk : ℕ
  chunks_per_frame : ℕ
  sample_rate : ℚ
  duration_s : ℚ
deriving DecidableEq

/-- Dosr::new.  The Rust constructor performs no validation whatsoever: it
builds the record and derives values_per_chunk = 2usize.pow(bits_per_chunk)
(a usize power, hence reduced mod 2 ^ 64). -/
def Dosr.new (base_freq delta_freq : ℚ) (bits_per_chunk chunks_per_frame : ℕ)
    (duration_s sample_rate : ℚ) : Dosr :=
  { base_freq := base_freq
    delta_freq := delta_freq
    bits_per_chunk := bits_per_chunk
    values_per_chunk := 2 ^ bits_per_chunk % 2 ^ 64
    chunks_per_frame := chunks_per_frame
    sample_rate := sample_rate
    duration_s := duration_s }

/-- f32::round, which rounds half away from zero. -/
def rustRound (q : ℚ) : ℤ :=
  if 0 ≤ q then ⌊q + 1 / 2⌋ else -⌊-q + 1 / 2⌋

/-- Dosr::calculate_frequency.  data is a u8 (callers pass values below 256).
The two asserts panic (none) when violated; values_per_chunk as u8 is a mod
256 truncation; the usize product wraps mod 2 ^ 64, its u8 cast truncates mod
256, and the u8 addition wraps mod 256 (release semantics). -/
def Dosr.calculate_frequency (s : Dosr) (data : ℕ) (chunk_index : ℕ) : Option ℚ :=
  if data < s.values_per_chunk % 256 then
    if chunk_index < s.chunks_per_frame then
      some (s.base_freq
        + (((data + s.values_per_chunk * chunk_index % 2 ^ 64 % 256) % 256 : ℕ) : ℚ)
          * s.delta_freq)
    else none
  else none

/-- Dosr::decode_frequency.  The f32 to usize cast saturates; the usize
product and subtraction wrap mod 2 ^ 64 (release semantics); the final u8
cast truncates mod 256. -/
def Dosr.decode_frequency (s : Dosr) (freq : ℚ) (chunk_index : ℕ) : ℕ :=
  (((((min (max (rustRound ((freq - s.base_freq) / s.delta_freq)) 0) (2 ^ 64 - 1)).toNat : ℤ)
      - ((s.values_per_chunk * chunk_index % 2 ^ 64 : ℕ) : ℤ)) % 2 ^ 64).toNat) % 256

/-- The default configuration (impl Default for Dosr): F0 = 1875.0,
DF = 46.875 = 375 / 8, 4 bits per chunk, 6 chunks per frame, 0.1 s frames at
44100 Hz. -/
def defaultCfg : Dosr := Dosr.new 1875 (375 / 8) 4 6 (1 / 10) 44100

/-- A configuration with bits_per_chunk = 8, allowed by the specification
(bits_per_chunk must divide 8).  Then values_per_chunk = 256 and its u8 cast
is 0, so the range assert of calculate_frequency can never pass. -/
def cfg8 : Dosr := Dosr.new 1875 (375 / 8) 8 1 (1 / 10) 44100

/-- Fuel-driven worker for chunksOf; the fuel is an upper bound on the list
length, so the fuel-exhausted branch is never taken by chunksOf.  Structural
recursion keeps every later proof kernel-reducible. -/
def chunksOfFuel {α : Type} : ℕ → ℕ → List α → List (List α)
  | 0, _, _ => []
  | _ + 1, _, [] => []
  | fuel + 1, n, x :: xs => (x :: xs.take (n - 1)) :: chunksOfFuel fuel n (xs.drop (n - 1))

/-- slice::chunks(n) / Itertools::chunks(n): split a list into consecutive
groups of n elements, the last group possibly shorter.  (The source panics
for n = 0; no caller passes 0.) -/
def chunksOf {α : Type} (n : ℕ) (xs : List α) : List (List α) :=
  chunksOfFuel xs.length n xs

/-- The bits of one byte, most significant first (bitvec view_bits::<Msb0>). -/
def byteBits (b : ℕ) : List Bool :=
  (List.range 8).map (fun i => b.testBit (7 - i))

/-- A byte slice viewed as an Msb0 bit stream. -/
def bytesToBits (bs : List ℕ) : List Bool :=
  (bs.map byteBits).flatten

/-- Dosr::bytes_to_chunks: cut the Msb0 bit stream into groups of
bits_per_chunk bits and fold each group MSB-first into a u8 symbol
(acc << 1 | bit, u8 arithmetic). -/
def Dosr.bytes_to_chunks (bpc : ℕ) (data : List ℕ) : List ℕ :=
  (chunksOf bpc (bytesToBits data)).map
    (fun c => c.foldl (fun acc bit => acc * 2 % 256 ||| (if bit then 1 else 0)) 0)

/-- The symbol regrouping inside Dosr::decode: groups of 8 / bits_per_chunk
symbols, each folded by acc << bits_per_chunk | x on u8 (a u8 shift masks the
shift amount mod 8 in release builds, and the shifted value wraps mod 256). -/
def Dosr.symbols_to_bytes (bpc : ℕ) (syms : List ℕ) : List ℕ :=
  (chunksOf (8 / bpc) syms).map
    (fun c => c.foldl (fun acc x => acc * 2 ^ (bpc % 8) % 256 ||| x) 0)

/-- Complex addition on (re, im) pairs. -/
def cadd (a b : ℚ × ℚ) : ℚ × ℚ := (a.1 + b.1, a.2 + b.2)

/-- Complex multiplication on (re, im) pairs. -/
def cmul (a b : ℚ × ℚ) : ℚ × ℚ := (a.1 * b.1 - a.2 * b.2, a.1 * b.2 + a.2 * b.1)

/-- Squared magnitude of a complex value.  Complex::norm itself is the square
root of this; since every magnitude the detector manipulates is compared with
other magnitudes or with the 0.4 threshold, and squaring is strictly monotone
on nonnegatives, the squared model preserves every comparison (the threshold
is squared to tau below). -/
def normSq (a : ℚ × ℚ) : ℚ := a.1 * a.1 + a.2 * a.2

/-- Bin k of the forward DFT of xs, with the twiddle table w as an explicit
parameter (ideally w k n = exp (-2 pi I k n / N), which is irrational; see
the header).  This is the transform rustfft computes in perform_fft. -/
def dftBin (w : ℕ → ℕ → ℚ × ℚ) (xs : List ℚ) (k : ℕ) : ℚ × ℚ :=
  ((List.range xs.length).map (fun n => cmul (xs.getD n 0, 0) (w k n))).foldl cadd (0, 0)

/-- Dosr::perform_fft: the samples become complex values with zero imaginary
part and are transformed in place; the output length equals the input
length. -/
def perform_fft (w : ℕ → ℕ → ℚ × ℚ) (xs : List ℚ) : List (ℚ × ℚ) :=
  (List.range xs.length).map (dftBin w xs)

/-- The magnitudes of the positive-frequency half of the spectrum (first
half of the FFT output), squared as explained at normSq. -/
def magnitudesOf (fft : List (ℚ × ℚ)) : List ℚ :=
  (fft.take (fft.length / 2)).map normSq

/-- let max_magnitude = magnitudes.iter().cloned().fold(0.0, f32::max). -/
def max_magnitude (fft : List (ℚ × ℚ)) : ℚ :=
  (magnitudesOf fft).foldl max 0

/-- Dosr::normalize_fft: each magnitude divided by the maximum one.  A silent
frame divides 0 by 0: NaN in f32, 0 here; both fail every strict comparison
made downstream. -/
def normalize_fft (fft : List (ℚ × ℚ)) : List ℚ :=
  (magnitudesOf fft).map (fun m => m / max_magnitude fft)

/-- The peak threshold 0.4 of detect_frequencies, squared (see normSq). -/
def tau : ℚ := 4 / 25

/-- One iteration of the peak loop of Dosr::detect_frequencies, at index i.
The source condition is
  mag > 0.4 && mag > magnitudes[i - 1] && mag > magnitudes[i + 1]
with short-circuit evaluation: when mag > 0.4 holds at i = 0 the index i - 1
underflows as a usize and the access panics (none); when additionally
mag > magnitudes[i - 1] holds at the last index, magnitudes[i + 1] is out of
bounds and the access panics (none). -/
def peakStep (mags : List ℚ) (bw : ℚ) (acc : Option (List ℚ)) (i : ℕ) : Option (List ℚ) :=
  match acc with
  | none => none
  | some fs =>
    if mags.getD i 0 > tau then
      if i = 0 then none
      else if mags.getD i 0 > mags.getD (i - 1) 0 then
        if i + 1 < mags.length then
          if mags.getD i 0 > mags.getD (i + 1) 0 then some (fs ++ [(i : ℚ) * bw])
          else some fs
        else none
      else some fs
    else some fs

/-- Dosr::detect_frequencies: normalize the spectrum, then scan every bin
index for local-maximum peaks above the threshold, emitting
i * (sample_rate / fft_len) for each peak.  The source binds the
normalized magnitudes and the bin width once; they are written out here. -/
def Dosr.detect_frequencies (s : Dosr) (w : ℕ → ℕ → ℚ × ℚ) (samples : List ℚ) :
    Option (List ℚ) :=
  (List.range (normalize_fft (perform_fft w samples)).length).foldl
    (peakStep (normalize_fft (perform_fft w samples))
      (s.sample_rate / ((perform_fft w samples).length : ℚ)))
    (some [])

/-- Dosr::decode_frame: the k-th detected frequency is decoded with chunk
index k. -/
def Dosr.decode_frame (s : Dosr) (w : ℕ → ℕ → ℚ × ℚ) (samples : List ℚ) :
    Option (List ℕ) :=
  (s.detect_frequencies w samples).map
    (fun fs => fs.enum.map (fun p => s.decode_frequency p.2 p.1))

/-- (sample_rate * duration_s) as usize, the per-frame sample count. -/
def Dosr.samples_per_frame (s : Dosr) : ℕ :=
  (⌊s.sample_rate * s.duration_s⌋).toNat

/-- Dosr::split_into_frames: consecutive slices of samples_per_frame
samples, the last possibly shorter. -/
def Dosr.split_into_frames (s : Dosr) (samples : List ℚ) : List (List ℚ) :=
  chunksOf s.samples_per_frame samples

/-- The AEAD collaborator (Aes128GcmSiv) as the modem sees it during decode:
decrypt nonce ciphertext returns the plaintext, or none when authentication
fails.  The encrypt direction is not exercised by the decode claims. -/
structure Cipher where
  decrypt : List ℕ → List ℕ → Option (List ℕ)

/-- Dosr::decode: split into frames, decode each frame (a panic in any frame
aborts the whole call), regroup the flattened symbol stream into bytes, and
strip the AEAD envelope if a cipher is given.  Nonce::from_slice panics
unless exactly 12 bytes remain for the nonce, and the decrypt result is
unwrapped, so an authentication failure panics (none). -/
def Dosr.decode (s : Dosr) (w : ℕ → ℕ → ℚ × ℚ) (samples : List ℚ)
    (cipher : Option Cipher) : Option (List ℕ) :=
  ((s.split_into_frames samples).mapM (s.decode_frame w)).bind (fun frameSyms =>
    let payload := Dosr.symbols_to_bytes s.bits_per_chunk frameSyms.flatten
    match cipher with
    | none => some payload
    | some ci =>
      if 12 ≤ payload.length then ci.decrypt (payload.take 12) (payload.drop 12) else none)

/-- Configuration for the C2 boundary fault: samples_per_frame = 8. -/
def cfgC2 : Dosr := Dosr.new 1875 (375 / 8) 4 6 1 8

/-- A constant (DC) frame of eight samples of value 1. -/
def onesFrame : List ℚ := List.replicate 8 1

/-- A rational twiddle table realizing the two spectral facts the C2 theorem
needs about the DC frame: bin 0 sums the samples, bins 1..3 cancel. -/
def wDC : ℕ → ℕ → ℚ × ℚ :=
  fun k n => if k = 0 then (1, 0) else if n % 2 = 0 then (1, 0) else (-1, 0)

/-- Configuration for the C10 underflow: 2 bits per chunk, 2 chunks per
frame, samples_per_frame = 12, base 1 Hz, delta 1 Hz. -/
def cfgC10 : Dosr := Dosr.new 1 1 2 2 1 12

/-- A 12-sample impulse frame. -/
def impulse12 : List ℚ := 1 :: List.replicate 11 0

/-- A twiddle table under which the impulse frame has peaks exactly at bins
1 and 3. -/
def wC10 : ℕ → ℕ → ℚ × ℚ :=
  fun k n => if n = 0 ∧ (k = 1 ∨ k = 3) then (1, 0) else (0, 0)

/-- Configuration for the C6 panic: 8 bits per chunk, samples_per_frame = 6,
base 0 Hz, delta 1 Hz, so each one-peak frame decodes to one byte. -/
def cfgC6 : Dosr := Dosr.new 0 1 8 1 1 6

/-- Like cfgC6 but with 4 bits per chunk, for the C7 trailing-group frame. -/
def cfgC7 : Dosr := Dosr.new 0 1 4 1 1 6

/-- A 6-sample impulse frame. -/
def impulse6 : List ℚ := 1 :: List.replicate 5 0

/-- A twiddle table under which the 6-sample impulse frame has its single
peak at bin 1. -/
def wImpulse : ℕ → ℕ → ℚ × ℚ :=
  fun k n => if n = 0 ∧ k = 1 then (1, 0) else (0, 0)

/-- A pure 1 Hz cosine sampled at 6 Hz for one second: the sample values
cos (2 pi n / 6) are the exact rationals below.  Its true DFT is
(0,0), (3,0), (0,0), (0,0), (0,0), (3,0): the frame is even-symmetric
(x n = x (6 - n)), so the odd-symmetric sine parts of the twiddles cancel
and every bin equals the plain cosine sum. -/
def cosFrame : List ℚ := [1, 1 / 2, -(1 / 2), -1, -(1 / 2), 1 / 2]

/-- The real parts of the true N = 6 twiddle factors:
cos (-2 pi k n / 6) = cos (2 pi (k n mod 6) / 6), which is exactly the
cosFrame table again.  The imaginary parts (sines) are irrational and are
zeroed here; on the even-symmetric cosFrame their contribution to every DFT
bin is zero, so dftBin wCos cosFrame k is the true DFT bin of the frame for
every k. -/
def wCos : ℕ → ℕ → ℚ × ℚ := fun k n => (cosFrame.getD (k * n % 6) 0, 0)

/-- Thirteen impulse frames in a row: decodes to 13 payload bytes under
cfgC6, enough to cover the 12-byte nonce plus one ciphertext byte. -/
def samplesC6 : List ℚ := (List.replicate 13 impulse6).flatten

/-- A cipher under which AEAD authentication always fails (wrong key or
tampered tag): decrypt returns an error for every input. -/
def failCipher : Cipher := ⟨fun _ _ => none⟩

/-- An arbitrary twiddle table, for witnesses that hold for every table. -/
def wZero : ℕ → ℕ → ℚ × ℚ := fun _ _ => (0, 0)

/-- A silent frame of samples_per_frame zeros at the default
configuration. -/
def silentFrame : List ℚ := List.replicate 4410 0

/-- rustRound is the identity on natural numbers. -/
theorem rustRound_natCast (m : ℕ) : rustRound (m : ℚ) = m := by
  unfold rustRound
  rw [if_pos (by positivity)]
  rw [show ((m : ℚ) + 1 / 2) = 1 / 2 + ((m : ℤ) : ℚ) by push_cast; ring]
  rw [Int.floor_add_int]
  norm_num

/-- C3 (counterexample): with bits_per_chunk = 8 the claim fails at
v = 0, c = 0 (both in range: 0 < values_per_chunk = 256 and 0 <
chunks_per_frame = 1): calculate_frequency panics on its first assert
(data < values_per_chunk as u8 = 0), so no frequency round trips back to 0. -/
theorem freq_plan_roundtrip_cex :
    (cfg8.calculate_frequency 0 0).map (fun f => cfg8.decode_frequency f 0) ≠ some 0 := by
  decide

/-- C3 (amended): for every configuration built by Dosr::new with
bits_per_chunk at most 7 and a nonzero delta_freq, and every value
v < values_per_chunk and chunk index c < chunks_per_frame, decoding the
frequency assigned by the plan recovers the symbol:
decode_frequency (calculate_frequency v c) c = v.  The 8 bit truncation of
the chunk offset cancels in the mod 256 arithmetic of the decoder, so this
holds even when values_per_chunk * c wraps. -/
theorem freq_plan_roundtrip (base delta : ℚ) (bpc cpf : ℕ) (dur rate : ℚ) (v c : ℕ)
    (hbpc : bpc ≤ 7) (hdelta : delta ≠ 0) (hv : v < 2 ^ bpc) (hc : c < cpf) :
    ((Dosr.new base delta bpc cpf dur rate).calculate_frequency v c).map
      (fun f => (Dosr.new base delta bpc cpf dur rate).decode_frequency f c) = some v := by
  have hL128 : 2 ^ bpc ≤ 128 := by
    calc 2 ^ bpc ≤ 2 ^ 7 := Nat.pow_le_pow_right (by norm_num) hbpc
    _ = 128 := by norm_num
  have hL64 : 2 ^ bpc < 2 ^ 64 := lt_of_le_of_lt hL128 (by norm_num)
  have hL256 : (2 : ℕ) ^ bpc ∣ 256 := by
    have h8 : (256 : ℕ) = 2 ^ 8 := by norm_num
    rw [h8]
    exact pow_dvd_pow 2 (by omega)
  -- the wrapped chunk offset occupies the low part of a 256-wide band
  have hsum : v + 2 ^ bpc * c % 256 < 256 := by
    obtain ⟨t, ht⟩ : 2 ^ bpc ∣ 2 ^ bpc * c % 256 := (Nat.dvd_mod_iff hL256).mpr ⟨c, rfl⟩
    obtain ⟨u, hu⟩ := hL256
    have h1 : 2 ^ bpc * c % 256 < 256 := Nat.mod_lt _ (by norm_num)
    have htu : t < u := by
      rw [ht, hu] at h1
      exact Nat.lt_of_mul_lt_mul_left h1
    have h2 : 2 ^ bpc * (t + 1) ≤ 2 ^ bpc * u := Nat.mul_le_mul_left _ (by omega)
    rw [Nat.mul_succ, ← hu] at h2
    rw [ht]
    generalize hA : (2 : ℕ) ^ bpc * t = A at h2
    generalize hB : (2 : ℕ) ^ bpc = B at hv h2
    omega
  have hoffmod : 2 ^ bpc * c % 2 ^ 64 % 256 = 2 ^ bpc * c % 256 :=
    Nat.mod_mod_of_dvd _ ⟨2 ^ 56, by norm_num⟩
  -- evaluate calculate_frequency
  have hcalc : (Dosr.new base delta bpc cpf dur rate).calculate_frequency v c =
      some (base + ((v + 2 ^ bpc * c % 256 : ℕ) : ℚ) * delta) := by
    unfold Dosr.calculate_frequency
    simp only [Dosr.new]
    rw [Nat.mod_eq_of_lt hL64]
    rw [if_pos (show v < 2 ^ bpc % 256 from by rw [Nat.mod_eq_of_lt (by omega)]; exact hv)]
    rw [if_pos hc]
    rw [hoffmod, Nat.mod_eq_of_lt hsum]
  rw [hcalc]
  simp only [Option.map_some']
  congr 1
  -- evaluate decode_frequency
  unfold Dosr.decode_frequency
  simp only [Dosr.new]
  rw [Nat.mod_eq_of_lt hL64]
  have hdiv : (base + ((v + 2 ^ bpc * c % 256 : ℕ) : ℚ) * delta - base) / delta
      = ((v + 2 ^ bpc * c % 256 : ℕ) : ℚ) := by
    field_simp
  rw [hdiv, rustRound_natCast]
  rw [max_eq_left (Int.ofNat_nonneg _)]
  rw [min_eq_left (show ((v + 2 ^ bpc * c % 256 : ℕ) : ℤ) ≤ 2 ^ 64 - 1 from by
    have h256 : (v + 2 ^ bpc * c % 256 : ℕ) < 256 := hsum
    omega)]
  rw [Int.toNat_natCast]
  -- pure modular arithmetic over the atoms v, o := offset, P := 2 ^ bpc * c
  generalize ho : (2 : ℕ) ^ bpc * c % 256 = o at hsum ⊢
  generalize hP : (2 : ℕ) ^ bpc * c = P at ho ⊢
  omega

/-- C3 (witness): the amended round trip at the default configuration,
value 5 in chunk 3. -/
theorem freq_plan_roundtrip_witness :
    (4 ≤ 7 ∧ ((375 : ℚ) / 8) ≠ 0 ∧ 5 < 2 ^ 4 ∧ 3 < 6) ∧
    ((Dosr.new 1875 (375 / 8) 4 6 (1 / 10) 44100).calculate_frequency 5 3).map
      (fun f => (Dosr.new 1875 (375 / 8) 4 6 (1 / 10) 44100).decode_frequency f 3) = some 5 :=
  ⟨⟨by norm_num, by norm_num, by norm_num, by norm_num⟩,
    freq_plan_roundtrip 1875 (375 / 8) 4 6 (1 / 10) 44100 5 3
      (by norm_num) (by norm_num) (by norm_num) (by norm_num)⟩

/-- C5 (counterexample): bits_per_chunk = 3 does not divide 8, so the
specification deems the configuration invalid and requires the constructor to
refuse; Dosr::new nevertheless returns a fully built modem instance. -/
theorem dosr_new_accepts_invalid_cex :
    Dosr.new 1875 (375 / 8) 3 6 (1 / 10) 44100 = ⟨1875, 375 / 8, 3, 8, 6, 44100, 1 / 10⟩ :=
  rfl

/-- C5 (amended): the constructor performs no validation at all: even when
bits_per_chunk does not divide 8 it returns the instance with the given
fields and the derived values_per_chunk. -/
theorem dosr_new_no_validation (base delta : ℚ) (bpc cpf : ℕ) (dur rate : ℚ)
    (_hinvalid : ¬ bpc ∣ 8) :
    Dosr.new base delta bpc cpf dur rate = ⟨base, delta, bpc, 2 ^ bpc % 2 ^ 64, cpf, rate, dur⟩ :=
  rfl

/-- C5 (witness): the constructor builds an instance for bits_per_chunk = 3. -/
theorem dosr_new_no_validation_witness :
    ¬ (3 : ℕ) ∣ 8 ∧ Dosr.new 0 0 3 0 0 0 = ⟨0, 0, 3, 2 ^ 3 % 2 ^ 64, 0, 0, 0⟩ :=
  ⟨by decide, dosr_new_no_validation 0 0 3 0 0 0 (by decide)⟩

/-- C9 (counterexample): with bits_per_chunk = 8 the claim asserts all chunks
collapse onto the band of chunk 0, i.e. calculate_frequency still returns
base_freq plus value times delta_freq; in fact the range assert compares
data against values_per_chunk as u8 = 0 and always fails, so
calculate_frequency panics (returns nothing) for every input. -/
theorem calculate_frequency_bpc8_cex : cfg8.calculate_frequency 0 0 = none := by
  decide

/-- C9 (amended): calculate_frequency truncates the chunk band offset
values_per_chunk * chunk_index to 8 bits before the (wrapping) u8 addition,
so a returned frequency equals base_freq + (value + values_per_chunk *
chunk_index) * delta_freq only when value + values_per_chunk * chunk_index
< 256; and for every configuration with bits_per_chunk = 8 the function
returns no frequency at all, because the range assert compares against
values_per_chunk as u8 = 0. -/
theorem calculate_frequency_offset_wrap :
    (∀ (base delta : ℚ) (bpc cpf : ℕ) (dur rate : ℚ) (v c : ℕ) (f : ℚ), delta ≠ 0 →
      (Dosr.new base delta bpc cpf dur rate).calculate_frequency v c = some f →
      f = base + ((v + (Dosr.new base delta bpc cpf dur rate).values_per_chunk * c : ℕ) : ℚ)
        * delta →
      v + (Dosr.new base delta bpc cpf dur rate).values_per_chunk * c < 256) ∧
    (∀ (base delta : ℚ) (cpf : ℕ) (dur rate : ℚ) (v c : ℕ),
      (Dosr.new base delta 8 cpf dur rate).calculate_frequency v c = none) := by
  constructor
  · intro base delta bpc cpf dur rate v c f hdelta hsome heq
    unfold Dosr.calculate_frequency at hsome
    by_cases h1 : v < (Dosr.new base delta bpc cpf dur rate).values_per_chunk % 256
    · rw [if_pos h1] at hsome
      by_cases h2 : c < (Dosr.new base delta bpc cpf dur rate).chunks_per_frame
      · rw [if_pos h2] at hsome
        have hf := Option.some.inj hsome
        set vpc := (Dosr.new base delta bpc cpf dur rate).values_per_chunk with hvpc
        have hK : ((v + vpc * c % 2 ^ 64 % 256) % 256 : ℕ) = v + vpc * c := by
          have hbase : (Dosr.new base delta bpc cpf dur rate).base_freq = base := rfl
          have hdel : (Dosr.new base delta bpc cpf dur rate).delta_freq = delta := rfl
          rw [hbase, hdel] at hf
          rw [← hf] at heq
          have := add_left_cancel heq
          have := mul_right_cancel₀ hdelta this
          exact_mod_cast this
        have : ((v + vpc * c % 2 ^ 64 % 256) % 256 : ℕ) < 256 := Nat.mod_lt _ (by norm_num)
        omega
      · rw [if_neg h2] at hsome
        exact absurd hsome (by simp)
    · rw [if_neg h1] at hsome
      exact absurd hsome (by simp)
  · intro base delta cpf dur rate v c
    unfold Dosr.calculate_frequency
    have hvpc : (Dosr.new base delta 8 cpf dur rate).values_per_chunk = 256 :=
      Nat.mod_eq_of_lt (by norm_num)
    rw [hvpc]
    norm_num

/-- C9 (witness): the offset bound is realized at a small configuration, and
the bits_per_chunk = 8 degeneracy at another. -/
theorem calculate_frequency_offset_wrap_witness :
    (((1 : ℚ) ≠ 0) ∧ (Dosr.new 0 1 2 1 1 1).calculate_frequency 3 0 = some 3 ∧
      (3 : ℚ) = 0 + ((3 + (Dosr.new 0 1 2 1 1 1).values_per_chunk * 0 : ℕ) : ℚ) * 1) ∧
    (3 + (Dosr.new 0 1 2 1 1 1).values_per_chunk * 0 < 256 ∧
      (Dosr.new 0 1 8 1 1 1).calculate_frequency 0 0 = none) :=
  ⟨⟨by norm_num, by norm_num [Dosr.calculate_frequency, Dosr.new], by norm_num [Dosr.new]⟩,
    ⟨calculate_frequency_offset_wrap.1 0 1 2 1 1 1 3 0 3 (by norm_num)
        (by norm_num [Dosr.calculate_frequency, Dosr.new]) (by norm_num [Dosr.new]),
      calculate_frequency_offset_wrap.2 0 1 1 1 1 0 0⟩⟩

theorem chunksOfFuel_congr {α : Type} :
    ∀ (f g n : ℕ) (xs : List α), xs.length ≤ f → xs.length ≤ g →
      chunksOfFuel f n xs = chunksOfFuel g n xs := by
  intro f
  induction f with
  | zero =>
    intro g n xs hf hg
    have : xs = [] := List.eq_nil_of_length_eq_zero (by omega)
    subst this
    cases g <;> rfl
  | succ f ih =>
    intro g n xs hf hg
    cases xs with
    | nil => cases g <;> rfl
    | cons x t =>
      cases g with
      | zero => simp at hg
      | succ g =>
        simp only [chunksOfFuel]
        congr 1
        apply ih
        · simp only [List.length_drop]
          simp at hf
          omega
        · simp only [List.length_drop]
          simp at hg
          omega

theorem chunksOf_nil {α : Type} (n : ℕ) : chunksOf n ([] : List α) = [] := rfl

theorem chunksOf_cons {α : Type} (n : ℕ) (x : α) (xs : List α) :
    chunksOf n (x :: xs) = (x :: xs.take (n - 1)) :: chunksOf n (xs.drop (n - 1)) := by
  show chunksOfFuel (xs.length + 1) n (x :: xs) = _
  simp only [chunksOfFuel]
  congr 1
  apply chunksOfFuel_congr
  · simp only [List.length_drop]
    omega
  · exact le_refl _

theorem chunksOf_singleton {α : Type} (n : ℕ) (xs : List α)
    (h : xs.length = n) (h0 : xs ≠ []) : chunksOf n xs = [xs] := by
  cases xs with
  | nil => exact absurd rfl h0
  | cons x t =>
    rw [chunksOf_cons]
    have hlen : t.length = n - 1 := by simp at h; omega
    rw [List.take_of_length_le (by omega), List.drop_eq_nil_of_le (by omega)]
    rfl

theorem chunksOf_append {α : Type} (n : ℕ) (hn : 0 < n) :
    ∀ (m : ℕ) (xs ys : List α), xs.length = n * m →
      chunksOf n (xs ++ ys) = chunksOf n xs ++ chunksOf n ys := by
  intro m
  induction m with
  | zero =>
    intro xs ys hx
    have : xs = [] := List.eq_nil_of_length_eq_zero (by omega)
    subst this
    simp [chunksOf_nil]
  | succ m ih =>
    intro xs ys hx
    rw [Nat.mul_succ] at hx
    cases xs with
    | nil =>
      simp at hx
      have hp : 0 < n * m + n := by omega
      omega
    | cons x t =>
      have ht : t.length = n * m + n - 1 := by
        simp at hx
        omega
      rw [List.cons_append, chunksOf_cons, chunksOf_cons]
      have h1 : (t ++ ys).take (n - 1) = t.take (n - 1) := by
        rw [List.take_append_eq_append_take]
        rw [show n - 1 - t.length = 0 by omega]
        simp
      have h2 : (t ++ ys).drop (n - 1) = t.drop (n - 1) ++ ys := by
        rw [List.drop_append_eq_append_drop]
        rw [show n - 1 - t.length = 0 by omega]
        simp
      rw [h1, h2, ih _ _ (by simp only [List.length_drop]; omega)]
      rfl

theorem chunksOf_length {α : Type} (n : ℕ) (hn : 0 < n) :
    ∀ xs : List α, (chunksOf n xs).length = (xs.length + n - 1) / n := by
  have key : ∀ (N : ℕ) (xs : List α), xs.length ≤ N →
      (chunksOf n xs).length = (xs.length + n - 1) / n := by
    intro N
    induction N with
    | zero =>
      intro xs h
      have hxs : xs = [] := List.eq_nil_of_length_eq_zero (by omega)
      subst hxs
      rw [chunksOf_nil]
      simp only [List.length_nil]
      rw [Nat.div_eq_of_lt (by omega)]
    | succ N ih =>
      intro xs h
      cases xs with
      | nil =>
        rw [chunksOf_nil]
        simp only [List.length_nil]
        rw [Nat.div_eq_of_lt (by omega)]
      | cons x t =>
        rw [chunksOf_cons]
        simp only [List.length_cons]
        simp only [List.length_cons] at h
        rw [ih _ (by simp only [List.length_drop]; omega)]
        simp only [List.length_drop]
        rcases Nat.lt_or_ge t.length (n - 1) with hlt | hge
        · rw [show t.length - (n - 1) + n - 1 = n - 1 by omega]
          rw [Nat.div_eq_of_lt (by omega)]
          rw [show t.length + 1 + n - 1 = t.length + n by omega]
          rw [Nat.add_div_right _ hn]
          rw [Nat.div_eq_of_lt (by omega)]
        · rw [show t.length - (n - 1) + n - 1 = t.length by omega]
          rw [show t.length + 1 + n - 1 = t.length + n by omega]
          rw [Nat.add_div_right _ hn]
  intro xs
  exact key xs.length xs (le_refl _)

theorem symbols_to_bytes_append (bpc : ℕ) (hg : 0 < 8 / bpc) (s1 s2 : List ℕ)
    (h1 : s1.length = 8 / bpc) :
    Dosr.symbols_to_bytes bpc (s1 ++ s2)
      = Dosr.symbols_to_bytes bpc s1 ++ Dosr.symbols_to_bytes bpc s2 := by
  unfold Dosr.symbols_to_bytes
  rw [chunksOf_append (8 / bpc) hg 1 s1 s2 (by rw [Nat.mul_one]; exact h1), List.map_append]

theorem roundtrip_aux (bpc : ℕ) (hpos : 0 < bpc) (hdvd : bpc ∣ 8)
    (hbyte : ∀ b < 256, Dosr.symbols_to_bytes bpc (Dosr.bytes_to_chunks bpc [b]) = [b]) :
    ∀ bs : List ℕ, (∀ b ∈ bs, b < 256) →
      Dosr.symbols_to_bytes bpc (Dosr.bytes_to_chunks bpc bs) = bs := by
  obtain ⟨q, hq⟩ := hdvd
  have hq0 : 0 < q := by
    rcases Nat.eq_zero_or_pos q with h | h
    · rw [h, Nat.mul_zero] at hq
      omega
    · exact h
  have hg : 8 / bpc = q := by
    rw [hq]
    exact Nat.mul_div_cancel_left q hpos
  intro bs
  induction bs with
  | nil => intro _; rfl
  | cons b t ih =>
    intro hmem
    have hb : b < 256 := hmem b (by simp)
    have hrest : ∀ x ∈ t, x < 256 := fun x hx => hmem x (by simp [hx])
    have hbits : bytesToBits (b :: t) = byteBits b ++ bytesToBits t := by
      simp [bytesToBits]
    have hbitlen : (byteBits b).length = 8 := by simp [byteBits]
    have hsingle : bytesToBits [b] = byteBits b := by simp [bytesToBits]
    have hsplit : Dosr.bytes_to_chunks bpc (b :: t)
        = Dosr.bytes_to_chunks bpc [b] ++ Dosr.bytes_to_chunks bpc t := by
      unfold Dosr.bytes_to_chunks
      rw [hbits, chunksOf_append bpc hpos q _ _ (by rw [hbitlen]; exact hq), List.map_append]
      rw [hsingle]
    have hS1len : (Dosr.bytes_to_chunks bpc [b]).length = q := by
      unfold Dosr.bytes_to_chunks
      rw [List.length_map, chunksOf_length bpc hpos, hsingle, hbitlen, hq]
      rw [show bpc * q + bpc - 1 = bpc * q + (bpc - 1) by omega]
      rw [Nat.mul_add_div hpos]
      rw [Nat.div_eq_of_lt (by omega)]
      omega
    rw [hsplit, symbols_to_bytes_append bpc (by rw [hg]; exact hq0) _ _ (by rw [hg]; exact hS1len)]
    rw [hbyte b hb, ih hrest]
    rfl

set_option maxRecDepth 16384 in
/-- C4: for every bits_per_chunk that divides 8 (the configurations the
specification admits) and every byte sequence, regrouping the MSB-first
symbol stream produced by bytes_to_chunks in groups of 8 / bits_per_chunk
symbols, each shifted in by bits_per_chunk with the first symbol forming the
high bits, restores the original bytes. -/
theorem bit_packing_roundtrip (bpc : ℕ) (hdvd : bpc ∣ 8) (hpos : 0 < bpc)
    (bs : List ℕ) (hbs : ∀ b ∈ bs, b < 256) :
    Dosr.symbols_to_bytes bpc (Dosr.bytes_to_chunks bpc bs) = bs := by
  have hle : bpc ≤ 8 := Nat.le_of_dvd (by norm_num) hdvd
  interval_cases bpc
  · exact roundtrip_aux 1 (by norm_num) (by norm_num) (by decide) bs hbs
  · exact roundtrip_aux 2 (by norm_num) (by norm_num) (by decide) bs hbs
  · exact absurd hdvd (by decide)
  · exact roundtrip_aux 4 (by norm_num) (by norm_num) (by decide) bs hbs
  · exact absurd hdvd (by decide)
  · exact absurd hdvd (by decide)
  · exact absurd hdvd (by decide)
  · exact roundtrip_aux 8 (by norm_num) (by norm_num) (by decide) bs hbs

/-- C4 (witness): the round trip evaluated on the bytes of "Hi" plus the two
extreme byte values, at the default 4 bits per chunk. -/
theorem bit_packing_roundtrip_witness :
    ((4 : ℕ) ∣ 8 ∧ 0 < 4 ∧ ∀ b ∈ [72, 105, 255, 0], b < 256) ∧
    Dosr.symbols_to_bytes 4 (Dosr.bytes_to_chunks 4 [72, 105, 255, 0]) = [72, 105, 255, 0] :=
  ⟨⟨by decide, by decide, by decide⟩,
    bit_packing_roundtrip 4 (by decide) (by decide) [72, 105, 255, 0] (by decide)⟩

/-- C7 (amended): the trailing incomplete group is not discarded.  Itertools
chunks also yields the short final group, and the fold emits one byte from
it, so the regrouping always produces ceil (symbols / (8 / bits_per_chunk))
bytes. -/
theorem symbols_to_bytes_group_count (bpc : ℕ) (syms : List ℕ) (hg : 0 < 8 / bpc) :
    (Dosr.symbols_to_bytes bpc syms).length = (syms.length + 8 / bpc - 1) / (8 / bpc) := by
  unfold Dosr.symbols_to_bytes
  rw [List.length_map, chunksOf_length (8 / bpc) hg]

/-- C7 (witness): one leftover symbol at 4 bits per chunk still produces one
output byte. -/
theorem symbols_to_bytes_group_count_witness :
    0 < 8 / 4 ∧
    (Dosr.symbols_to_bytes 4 [9]).length = (([9] : List ℕ).length + 8 / 4 - 1) / (8 / 4) :=
  ⟨by decide, symbols_to_bytes_group_count 4 [9] (by decide)⟩


theorem cadd_zero_left (z : ℚ × ℚ) : cadd (0, 0) z = z := by
  cases z
  simp [cadd]

theorem cadd_zero_right (z : ℚ × ℚ) : cadd z (0, 0) = z := by
  cases z
  simp [cadd]

theorem cmul_zero_left (z : ℚ × ℚ) : cmul (0, 0) z = (0, 0) := by
  simp [cmul]

theorem cmul_one_left (z : ℚ × ℚ) : cmul (1, 0) z = z := by
  cases z
  simp [cmul]

theorem foldl_cadd_const (l : List (ℚ × ℚ)) (h : ∀ z ∈ l, z = (0, 0)) :
    ∀ a, l.foldl cadd a = a := by
  induction l with
  | nil => intro a; rfl
  | cons x t ih =>
    intro a
    have hx : x = (0, 0) := h x (by simp)
    rw [List.foldl_cons, hx, cadd_zero_right]
    exact ih (fun z hz => h z (by simp [hz])) a

theorem getD_replicate_zero : ∀ (N n : ℕ), (List.replicate N (0 : ℚ)).getD n 0 = 0 := by
  intro N
  induction N with
  | zero => intro n; cases n <;> rfl
  | succ N ih =>
    intro n
    cases n with
    | zero => rfl
    | succ m =>
      rw [List.replicate_succ]
      simpa using ih m

theorem dftBin_impulse (w : ℕ → ℕ → ℚ × ℚ) (m k : ℕ) :
    dftBin w (1 :: List.replicate m 0) k = w k 0 := by
  unfold dftBin
  rw [show (1 :: List.replicate m (0 : ℚ)).length = m + 1 by simp]
  rw [List.range_succ_eq_map, List.map_cons, List.map_map, List.foldl_cons]
  have h0 : cadd (0, 0) (cmul ((1 :: List.replicate m (0 : ℚ)).getD 0 0, 0) (w k 0)) = w k 0 := by
    show cadd (0, 0) (cmul (1, 0) (w k 0)) = w k 0
    rw [cmul_one_left, cadd_zero_left]
  rw [h0]
  apply foldl_cadd_const
  intro z hz
  simp only [List.mem_map, Function.comp] at hz
  obtain ⟨n, hn, rfl⟩ := hz
  have hg : (1 :: List.replicate m (0 : ℚ)).getD (n + 1) 0 = 0 := by
    simpa using getD_replicate_zero m n
  rw [hg, cmul_zero_left]

theorem fft_impulse6 :
    perform_fft wImpulse impulse6 = [(0, 0), (1, 0), (0, 0), (0, 0), (0, 0), (0, 0)] := by
  unfold perform_fft impulse6
  rw [show (1 :: List.replicate 5 (0 : ℚ)).length = 6 by simp]
  rw [show List.range 6 = [0, 1, 2, 3, 4, 5] by rfl]
  simp only [List.map_cons, List.map_nil, dftBin_impulse]
  simp [wImpulse]

theorem normalize_impulse6 :
    normalize_fft (perform_fft wImpulse impulse6) = [0, 1, 0] := by
  rw [fft_impulse6]
  unfold normalize_fft magnitudesOf max_magnitude magnitudesOf
  norm_num [normSq, max_def]

theorem spf_six (s : Dosr) (h1 : s.sample_rate = 6) (h2 : s.duration_s = 1) :
    s.samples_per_frame = 6 := by
  unfold Dosr.samples_per_frame
  rw [h1, h2]
  norm_num
  rfl

theorem decfreq_c6 : cfgC6.decode_frequency 1 0 = 1 := by
  unfold Dosr.decode_frequency cfgC6 Dosr.new
  norm_num [rustRound]

theorem decfreq_c7 : cfgC7.decode_frequency 1 0 = 1 := by
  unfold Dosr.decode_frequency cfgC7 Dosr.new
  norm_num [rustRound]

theorem detect_impulse6_any (s : Dosr) (hs : s.sample_rate = 6) :
    s.detect_frequencies wImpulse impulse6 = some [1] := by
  unfold Dosr.detect_frequencies
  rw [normalize_impulse6, fft_impulse6, hs]
  rw [show List.range ([(0 : ℚ), 1, 0].length) = [0, 1, 2] by rfl]
  simp only [List.foldl_cons, List.foldl_nil]
  norm_num [peakStep, tau, List.getD]

theorem decode_frame_c6 : cfgC6.decode_frame wImpulse impulse6 = some [1] := by
  unfold Dosr.decode_frame
  rw [detect_impulse6_any cfgC6 rfl]
  simp only [Option.map_some']
  rw [show ([(1 : ℚ)]).enum = [(0, (1 : ℚ))] from rfl]
  simp only [List.map_cons, List.map_nil]
  rw [decfreq_c6]

theorem decode_frame_c7 : cfgC7.decode_frame wImpulse impulse6 = some [1] := by
  unfold Dosr.decode_frame
  rw [detect_impulse6_any cfgC7 rfl]
  simp only [Option.map_some']
  rw [show ([(1 : ℚ)]).enum = [(0, (1 : ℚ))] from rfl]
  simp only [List.map_cons, List.map_nil]
  rw [decfreq_c7]

theorem mapM_replicate {α β : Type} (f : α → Option β) (a : α) (b : β) (h : f a = some b) :
    ∀ n, (List.replicate n a).mapM f = some (List.replicate n b) := by
  intro n
  induction n with
  | zero => rfl
  | succ n ih =>
    rw [List.replicate_succ, List.replicate_succ, List.mapM_cons, h, ih]
    rfl

theorem chunksOf_flatten_replicate {α : Type} (n : ℕ) (hn : 0 < n) (l : List α)
    (hl : l.length = n) (hne : l ≠ []) :
    ∀ k, chunksOf n (List.replicate k l).flatten = List.replicate k l := by
  intro k
  induction k with
  | zero => rfl
  | succ k ih =>
    rw [List.replicate_succ, List.flatten_cons]
    rw [chunksOf_append n hn 1 l _ (by rw [Nat.mul_one]; exact hl)]
    rw [chunksOf_singleton n l hl hne, ih]
    rfl

/-- C6 (counterexample): thirteen one-peak frames decode to a 13-byte
payload; with a cipher whose authentication fails on the recovered
ciphertext, decode panics on the unwrap of the decrypt result (none) instead
of surfacing an AuthFailed error value to the caller -- its return type has
no error channel at all. -/
theorem decode_auth_failure_cex : cfgC6.decode wImpulse samplesC6 (some failCipher) = none := by
  unfold Dosr.decode Dosr.split_into_frames
  rw [spf_six cfgC6 rfl rfl]
  rw [show samplesC6 = (List.replicate 13 impulse6).flatten from rfl]
  rw [chunksOf_flatten_replicate 6 (by norm_num) impulse6 (by simp [impulse6]) (by simp [impulse6]) 13]
  rw [mapM_replicate _ _ _ decode_frame_c6 13]
  simp only [Option.some_bind]
  rw [show (List.replicate 13 [(1 : ℕ)]).flatten = List.replicate 13 1 by decide]
  rw [show Dosr.symbols_to_bytes cfgC6.bits_per_chunk (List.replicate 13 1)
      = List.replicate 13 1 by decide]
  rfl

theorem dftBin_wCos_0 : dftBin wCos cosFrame 0 = (0, 0) := by
  unfold dftBin
  rw [show cosFrame.length = 6 from rfl]
  rw [show List.range 6 = [0, 1, 2, 3, 4, 5] by rfl]
  norm_num [wCos, cosFrame, cmul, cadd, List.getD]

theorem dftBin_wCos_1 : dftBin wCos cosFrame 1 = (3, 0) := by
  unfold dftBin
  rw [show cosFrame.length = 6 from rfl]
  rw [show List.range 6 = [0, 1, 2, 3, 4, 5] by rfl]
  norm_num [wCos, cosFrame, cmul, cadd, List.getD]

theorem dftBin_wCos_2 : dftBin wCos cosFrame 2 = (0, 0) := by
  unfold dftBin
  rw [show cosFrame.length = 6 from rfl]
  rw [show List.range 6 = [0, 1, 2, 3, 4, 5] by rfl]
  norm_num [wCos, cosFrame, cmul, cadd, List.getD]

theorem mags_cosFrame : magnitudesOf (perform_fft wCos cosFrame) = [0, 9, 0] := by
  have hfft : perform_fft wCos cosFrame
      = [dftBin wCos cosFrame 0, dftBin wCos cosFrame 1, dftBin wCos cosFrame 2,
         dftBin wCos cosFrame 3, dftBin wCos cosFrame 4, dftBin wCos cosFrame 5] := by
    unfold perform_fft
    rw [show cosFrame.length = 6 from rfl]
    rw [show List.range 6 = [0, 1, 2, 3, 4, 5] by rfl]
    rfl
  rw [hfft]
  unfold magnitudesOf
  norm_num
  rw [dftBin_wCos_0, dftBin_wCos_1, dftBin_wCos_2]
  norm_num [normSq]

theorem detect_cosFrame : cfgC7.detect_frequencies wCos cosFrame = some [1] := by
  have hnorm : normalize_fft (perform_fft wCos cosFrame) = [0, 1, 0] := by
    unfold normalize_fft max_magnitude
    rw [mags_cosFrame]
    norm_num [max_def]
  unfold Dosr.detect_frequencies
  rw [hnorm]
  rw [show (perform_fft wCos cosFrame).length = 6 from by
    unfold perform_fft
    rw [show cosFrame.length = 6 from rfl]
    simp]
  rw [show List.range ([(0 : ℚ), 1, 0].length) = [0, 1, 2] by rfl]
  simp only [List.foldl_cons, List.foldl_nil]
  norm_num [peakStep, tau, List.getD, cfgC7, Dosr.new]

theorem decode_frame_cos : cfgC7.decode_frame wCos cosFrame = some [1] := by
  unfold Dosr.decode_frame
  rw [detect_cosFrame]
  simp only [Option.map_some']
  rw [show ([(1 : ℚ)]).enum = [(0, (1 : ℚ))] from rfl]
  simp only [List.map_cons, List.map_nil]
  rw [decfreq_c7]

/-- C7 (counterexample): decoding the pure 1 Hz cosine frame.  The twiddle
table wCos reproduces the true DFT of this frame bin for bin (the frame is
even-symmetric, so the zeroed sine parts contribute nothing), and the true
spectrum has its single peak at bin 1 with silent neighbors -- no boundary
fault is reached.  The decoder therefore recovers exactly one symbol; at
4 bits per chunk one symbol is an incomplete half-byte group, and decode
emits the byte 1 built from it instead of discarding the group: the claim
predicts an empty output. -/
theorem trailing_group_kept_cex : cfgC7.decode wCos cosFrame none = some [1] := by
  unfold Dosr.decode Dosr.split_into_frames
  rw [spf_six cfgC7 rfl rfl]
  rw [chunksOf_singleton 6 cosFrame rfl (by intro h; simp [cosFrame] at h)]
  rw [show ([cosFrame] : List (List ℚ)).mapM (cfgC7.decode_frame wCos)
      = some [[1]] from by rw [List.mapM_cons, decode_frame_cos]; rfl]
  rfl

theorem fft_impulse12 :
    perform_fft wC10 impulse12
      = [(0, 0), (1, 0), (0, 0), (1, 0), (0, 0), (0, 0),
         (0, 0), (0, 0), (0, 0), (0, 0), (0, 0), (0, 0)] := by
  unfold perform_fft impulse12
  rw [show (1 :: List.replicate 11 (0 : ℚ)).length = 12 by simp]
  rw [show List.range 12 = [0, 1, 2, 3, 4, 5, 6, 7, 8, 9, 10, 11] by rfl]
  simp only [List.map_cons, List.map_nil, dftBin_impulse]
  simp [wC10]

theorem normalize_impulse12 :
    normalize_fft (perform_fft wC10 impulse12) = [0, 1, 0, 1, 0, 0] := by
  rw [fft_impulse12]
  unfold normalize_fft magnitudesOf max_magnitude magnitudesOf
  norm_num [normSq, max_def]

theorem detect_impulse12 : cfgC10.detect_frequencies wC10 impulse12 = some [1, 3] := by
  unfold Dosr.detect_frequencies
  rw [normalize_impulse12, fft_impulse12]
  rw [show List.range ([(0 : ℚ), 1, 0, 1, 0, 0].length) = [0, 1, 2, 3, 4, 5] by rfl]
  simp only [List.foldl_cons, List.foldl_nil]
  norm_num [peakStep, tau, List.getD, cfgC10, Dosr.new]

theorem decfreq_c10_0 : cfgC10.decode_frequency 1 0 = 0 := by
  unfold Dosr.decode_frequency cfgC10 Dosr.new
  norm_num [rustRound]

theorem decfreq_c10_1 : cfgC10.decode_frequency 3 1 = 254 := by
  unfold Dosr.decode_frequency cfgC10 Dosr.new
  norm_num [rustRound]
  rfl

/-- C10: on a valid-length frame whose detected peaks are 1 Hz and 3 Hz
(the second peak below base_freq + values_per_chunk * delta_freq), the
rounded bin offset of the second peak (2) is smaller than
values_per_chunk * 1 (4), so the usize subtraction in decode_frequency
underflows; under the release (wrapping) semantics modelled here the symbol
wraps to 254 and decode still returns bytes -- no corrupt-symbol error is
surfaced.  (In a debug build the same subtraction panics.) -/
theorem decode_frequency_underflow (w : ℕ → ℕ → ℚ × ℚ) (samples : List ℚ)
    (hlen : samples.length = 12)
    (hdet : cfgC10.detect_frequencies w samples = some [1, 3]) :
    rustRound ((3 - cfgC10.base_freq) / cfgC10.delta_freq)
      < ((cfgC10.values_per_chunk * 1 : ℕ) : ℤ) ∧
    cfgC10.decode_frequency 3 1 = 254 ∧
    cfgC10.decode w samples none = some [254] := by
  refine ⟨by norm_num [cfgC10, Dosr.new, rustRound], decfreq_c10_1, ?_⟩
  have hframe : cfgC10.decode_frame w samples = some [0, 254] := by
    unfold Dosr.decode_frame
    rw [hdet]
    simp only [Option.map_some']
    rw [show ([(1 : ℚ), 3]).enum = [(0, (1 : ℚ)), (1, (3 : ℚ))] from rfl]
    simp only [List.map_cons, List.map_nil]
    rw [decfreq_c10_0, decfreq_c10_1]
  unfold Dosr.decode Dosr.split_into_frames
  rw [show cfgC10.samples_per_frame = 12 from by
    unfold Dosr.samples_per_frame cfgC10 Dosr.new
    norm_num
    rfl]
  rw [chunksOf_singleton 12 samples hlen (by intro hnil; rw [hnil] at hlen; simp at hlen)]
  rw [show ([samples] : List (List ℚ)).mapM (cfgC10.decode_frame w) = some [[0, 254]] from by
    rw [List.mapM_cons, hframe]
    rfl]
  rfl

theorem mags_onesFrame (w : ℕ → ℕ → ℚ × ℚ) (h0 : dftBin w onesFrame 0 = (8, 0))
    (hk : ∀ k, 1 ≤ k → k < 4 → dftBin w onesFrame k = (0, 0)) :
    magnitudesOf (perform_fft w onesFrame) = [64, 0, 0, 0] := by
  have hfft : perform_fft w onesFrame
      = [dftBin w onesFrame 0, dftBin w onesFrame 1, dftBin w onesFrame 2, dftBin w onesFrame 3,
         dftBin w onesFrame 4, dftBin w onesFrame 5, dftBin w onesFrame 6,
         dftBin w onesFrame 7] := by
    unfold perform_fft
    rw [show onesFrame.length = 8 by simp [onesFrame]]
    rw [show List.range 8 = [0, 1, 2, 3, 4, 5, 6, 7] by rfl]
    rfl
  rw [hfft]
  unfold magnitudesOf
  norm_num
  rw [h0, hk 1 (by norm_num) (by norm_num), hk 2 (by norm_num) (by norm_num),
    hk 3 (by norm_num) (by norm_num)]
  norm_num [normSq]

/-- C2: the peak loop does NOT skip bin 0.  For the constant frame of eight
1.0 samples (whose DFT concentrates in the DC bin: the two hypotheses state
the exact mathematical bin values Sum 1 = 8 and Sum exp(-2 pi I k n / 8) = 0
for k = 1..3), the normalized magnitude of bin 0 is 1 > 0.4, so the loop
evaluates magnitudes[0 - 1]: the usize index underflows and the access
panics (none). -/
theorem detect_frequencies_bin0_fault (w : ℕ → ℕ → ℚ × ℚ)
    (h0 : dftBin w onesFrame 0 = (8, 0))
    (hk : ∀ k, 1 ≤ k → k < 4 → dftBin w onesFrame k = (0, 0)) :
    cfgC2.detect_frequencies w onesFrame = none := by
  have hnorm : normalize_fft (perform_fft w onesFrame) = [1, 0, 0, 0] := by
    unfold normalize_fft max_magnitude
    rw [mags_onesFrame w h0 hk]
    norm_num [max_def]
  unfold Dosr.detect_frequencies
  rw [hnorm]
  rw [show List.range ([(1 : ℚ), 0, 0, 0].length) = [0, 1, 2, 3] by rfl]
  simp only [List.foldl_cons, List.foldl_nil]
  norm_num [peakStep, tau, List.getD]

theorem dftBin_wDC_0 : dftBin wDC onesFrame 0 = (8, 0) := by
  unfold dftBin
  rw [show onesFrame.length = 8 by simp [onesFrame]]
  rw [show List.range 8 = [0, 1, 2, 3, 4, 5, 6, 7] by rfl]
  rw [show onesFrame = [1, 1, 1, 1, 1, 1, 1, 1] from rfl]
  norm_num [wDC, cmul, cadd, List.getD]

theorem dftBin_wDC_pos : ∀ k, 1 ≤ k → k < 4 → dftBin wDC onesFrame k = (0, 0) := by
  intro k hk1 hk2
  interval_cases k <;>
  · unfold dftBin
    rw [show onesFrame.length = 8 by simp [onesFrame]]
    rw [show List.range 8 = [0, 1, 2, 3, 4, 5, 6, 7] by rfl]
    rw [show onesFrame = [1, 1, 1, 1, 1, 1, 1, 1] from rfl]
    norm_num [wDC, cmul, cadd, List.getD]

theorem perform_fft_zero (w : ℕ → ℕ → ℚ × ℚ) (N : ℕ) :
    perform_fft w (List.replicate N 0) = List.replicate N (0, 0) := by
  unfold perform_fft
  rw [List.length_replicate]
  have hbin : ∀ k, dftBin w (List.replicate N 0) k = (0, 0) := by
    intro k
    unfold dftBin
    apply foldl_cadd_const
    intro z hz
    simp only [List.mem_map] at hz
    obtain ⟨n, hn, rfl⟩ := hz
    rw [getD_replicate_zero, cmul_zero_left]
  calc (List.range N).map (dftBin w (List.replicate N 0))
      = (List.range N).map (fun _ => ((0 : ℚ), (0 : ℚ))) :=
        List.map_congr_left (fun k _ => hbin k)
    _ = List.replicate N (0, 0) := by
        rw [List.map_const', List.length_range]

theorem magnitudes_replicate_zero (N : ℕ) :
    magnitudesOf (List.replicate N ((0 : ℚ), (0 : ℚ))) = List.replicate (N / 2) 0 := by
  unfold magnitudesOf
  rw [List.length_replicate, List.take_replicate]
  rw [min_eq_left (Nat.div_le_self N 2)]
  rw [List.map_replicate]
  norm_num [normSq]

theorem foldl_max_zero : ∀ (l : List ℚ), (∀ x ∈ l, x = 0) → l.foldl max 0 = 0 := by
  intro l
  induction l with
  | nil => intro _; rfl
  | cons x t ih =>
    intro h
    rw [List.foldl_cons, h x (by simp), max_self]
    exact ih (fun z hz => h z (by simp [hz]))

theorem max_magnitude_zero (w : ℕ → ℕ → ℚ × ℚ) (N : ℕ) :
    max_magnitude (perform_fft w (List.replicate N 0)) = 0 := by
  unfold max_magnitude
  rw [perform_fft_zero, magnitudes_replicate_zero]
  exact foldl_max_zero _ (fun x hx => List.eq_of_mem_replicate hx)

theorem normalize_fft_replicate_zero (w : ℕ → ℕ → ℚ × ℚ) (N : ℕ) :
    normalize_fft (perform_fft w (List.replicate N 0)) = List.replicate (N / 2) 0 := by
  unfold normalize_fft
  rw [max_magnitude_zero w N]
  rw [perform_fft_zero, magnitudes_replicate_zero, List.map_replicate]
  norm_num

theorem peak_fold_none (mags : List ℚ) (bw : ℚ) (h : ∀ i, ¬ tau < mags.getD i 0) :
    ∀ l : List ℕ, l.foldl (peakStep mags bw) (some []) = some [] := by
  intro l
  induction l with
  | nil => rfl
  | cons i t ih =>
    rw [List.foldl_cons]
    have hstep : peakStep mags bw (some []) i = some [] := by
      simp only [peakStep]
      rw [if_neg (h i)]
    rw [hstep]
    exact ih

/-- C8: for the silent frame (4410 zero samples at the default
configuration) and every twiddle table, the maximum FFT magnitude is 0, the
detector returns no frequencies, and decode without a cipher returns the
empty byte sequence. -/
theorem silent_frame_decode_empty (w : ℕ → ℕ → ℚ × ℚ) :
    max_magnitude (perform_fft w silentFrame) = 0 ∧
    defaultCfg.detect_frequencies w silentFrame = some [] ∧
    defaultCfg.decode w silentFrame none = some [] := by
  have hdet : defaultCfg.detect_frequencies w silentFrame = some [] := by
    unfold Dosr.detect_frequencies
    rw [show silentFrame = List.replicate 4410 (0 : ℚ) from rfl]
    rw [normalize_fft_replicate_zero w 4410]
    apply peak_fold_none
    intro i
    rw [getD_replicate_zero]
    norm_num [tau]
  refine ⟨?_, hdet, ?_⟩
  · rw [show silentFrame = List.replicate 4410 (0 : ℚ) from rfl]
    exact max_magnitude_zero w 4410
  · unfold Dosr.decode Dosr.split_into_frames
    rw [show defaultCfg.samples_per_frame = 4410 from by
      unfold Dosr.samples_per_frame defaultCfg Dosr.new
      norm_num
      rfl]
    rw [chunksOf_singleton 4410 silentFrame
      (by rw [show silentFrame = List.replicate 4410 (0 : ℚ) from rfl, List.length_replicate])
      (by
        rw [show silentFrame = List.replicate 4410 (0 : ℚ) from rfl]
        intro hnil
        have h0 := congrArg List.length hnil
        rw [List.length_replicate] at h0
        simp at h0)]
    rw [show ([silentFrame] : List (List ℚ)).mapM (defaultCfg.decode_frame w) = some [[]] from by
      rw [List.mapM_cons]
      rw [show defaultCfg.decode_frame w silentFrame = some [] from by
        unfold Dosr.decode_frame
        rw [hdet]
        rfl]
      rfl]
    rfl

/-- C6 (amended): whenever AEAD authentication of the recovered ciphertext
fails, decode panics -- the unwrap of the decrypt result (or, for a payload
shorter than 12 bytes, Nonce::from_slice) aborts the call; no value, neither
partial plaintext nor an error kind, reaches the caller. -/
theorem decode_auth_failure_panics (s : Dosr) (w : ℕ → ℕ → ℚ × ℚ) (samples : List ℚ) (ci : Cipher)
    (hfail : ∀ nonce ct, ci.decrypt nonce ct = none) :
    s.decode w samples (some ci) = none := by
  unfold Dosr.decode
  cases h : (s.split_into_frames samples).mapM (s.decode_frame w) with
  | none => rfl
  | some fs =>
    simp only [Option.some_bind]
    by_cases h12 : 12 ≤ (Dosr.symbols_to_bytes s.bits_per_chunk fs.flatten).length
    · rw [if_pos h12, hfail]
    · rw [if_neg h12]

/-- C2 (witness): the rational twiddle table wDC realizes both spectral
hypotheses, and the detector faults on the DC frame. -/
theorem detect_frequencies_bin0_fault_witness :
    cfgC2.detect_frequencies wDC onesFrame = none :=
  detect_frequencies_bin0_fault wDC dftBin_wDC_0 dftBin_wDC_pos

/-- C10 (witness): the impulse frame under the twiddle table wC10 has
detected peaks [1, 3], and the underflow theorem applies to it. -/
theorem decode_frequency_underflow_witness :
    (impulse12.length = 12 ∧ cfgC10.detect_frequencies wC10 impulse12 = some [1, 3]) ∧
    (rustRound ((3 - cfgC10.base_freq) / cfgC10.delta_freq)
        < ((cfgC10.values_per_chunk * 1 : ℕ) : ℤ) ∧
      cfgC10.decode_frequency 3 1 = 254 ∧
      cfgC10.decode wC10 impulse12 none = some [254]) :=
  ⟨⟨by simp [impulse12], detect_impulse12⟩,
    decode_frequency_underflow wC10 impulse12 (by simp [impulse12]) detect_impulse12⟩

/-- C8 (witness): the silent-frame theorem instantiated at a concrete
twiddle table. -/
theorem silent_frame_decode_empty_witness :
    max_magnitude (perform_fft wZero silentFrame) = 0 ∧
    defaultCfg.detect_frequencies wZero silentFrame = some [] ∧
    defaultCfg.decode wZero silentFrame none = some [] :=
  silent_frame_decode_empty wZero

/-- C6 (witness): the failing cipher satisfies the hypothesis for every
input, and decode with it returns no value. -/
theorem decode_auth_failure_panics_witness :
    defaultCfg.decode wZero [] (some failCipher) = none :=
  decode_auth_failure_panics defaultCfg wZero [] failCipher (fun _ _ => rfl)
